import Mathlib

/-!
Verification of the MQTT topic-subscription dispatcher of the
`honeywell_galaxy` integration (`custom_components/honeywell_galaxy`).

The development shallowly embeds, from the source:
* `_topic_matches` (coordinator.py): the pattern is turned into a Python
  regular expression by `pattern.replace("+", "[^/]+").replace("#", ".*")`,
  anchored as `^...$`, and run with `re.match` against the topic.  We embed
  the fragment of Python regexes that this translation can produce when the
  original pattern contains no regex metacharacter other than `.`:
  literal characters, `.` (any character except newline), `.*` (from `#`)
  and `[^/]+` (from `+`).  Patterns containing other metacharacters
  (`\`, `^`, `$`, `*`, `?`, `{`, `}`, `[`, `]`, `(`, `)`, `|`) are outside
  the embedded fragment, and the embedding returns `none` for them.
  `re.match` with a trailing `$` also succeeds when the regex matches the
  topic minus a single trailing newline; the embedding reproduces this.
* the `GalaxyCoordinator` registry operations `subscribe`, `unsubscribe`,
  `publish`, and the `on_connect` / `on_message` MQTT callbacks
  (coordinator.py), with callbacks as opaque `Nat` handles and callback
  bodies modelled by a behaviour function that may fail;
* the `PrinterLogSensor` trailing log buffer (sensor.py).
-/

namespace HoneywellGalaxy

/-- Tokens of the regex fragment produced by `_topic_matches`'s translation:
a literal character, `.` (from a literal `.` in the pattern), `.*` (the
image of `#`) and `[^/]+` (the image of `+`). -/
inductive RTok where
  | lit (c : Char)
  | anyc
  | star
  | plusClass
  deriving DecidableEq, Repr

/-- Python regex metacharacters: a pattern character in this set is not
matched literally by `re`, so a pattern containing one (other than the
translated `+`/`#`/`.`) is outside the embedded fragment. -/
def metaChar (c : Char) : Bool :=
  c == '\\' || c == '.' || c == '^' || c == '$' || c == '*' || c == '+' ||
  c == '?' || c == '{' || c == '}' || c == '[' || c == ']' ||
  c == '(' || c == ')' || c == '|'

/-- A character that `_topic_matches` treats as a plain literal: neither a
regex metacharacter nor one of the MQTT wildcards. -/
def plainChar (c : Char) : Bool :=
  !(metaChar c) && c != '#'

/-- Translate one pattern character, following
`pattern.replace("+", "[^/]+").replace("#", ".*")`: `+` becomes `[^/]+`,
`#` becomes `.*`, a literal `.` stays the regex `.`; any other
metacharacter leaves the embedded fragment. -/
def compileChar (c : Char) : Option RTok :=
  if c == '+' then some .plusClass
  else if c == '#' then some .star
  else if c == '.' then some .anyc
  else if metaChar c then none
  else some (.lit c)

/-- Translate a whole pattern to the token list of the regex
`^ translation $` built by `_topic_matches`. -/
def compilePattern : List Char → Option (List RTok)
  | [] => some []
  | c :: cs =>
      match compileChar c, compilePattern cs with
      | some t, some ts => some (t :: ts)
      | some _, none => none
      | none, _ => none

/-- All ways `.*` can consume a prefix of `s`: the suffixes of `s` obtained
by dropping zero or more characters none of which is a newline (Python `.`
does not match `\n` without `re.DOTALL`). -/
def starSuffixes : List Char → List (List Char)
  | [] => [[]]
  | c :: cs => (c :: cs) :: (if c == '\n' then [] else starSuffixes cs)

/-- All ways `[^/]+` can consume a prefix of `s`: the suffixes of `s`
obtained by dropping one or more characters none of which is `/`
(a negated class does match `\n`). -/
def plusSuffixes : List Char → List (List Char)
  | [] => []
  | c :: cs => if c == '/' then [] else cs :: plusSuffixes cs

/-- Matching of a token list against a whole string (the regex is anchored
on both sides).  Backtracking is expressed by trying every admissible
split, which gives the same boolean result as Python's backtracking
engine. -/
def rmatch : List RTok → List Char → Bool
  | [], s => s == []
  | .lit c :: ts, s =>
      match s with
      | [] => false
      | x :: xs => x == c && rmatch ts xs
  | .anyc :: ts, s =>
      match s with
      | [] => false
      | x :: xs => x != '\n' && rmatch ts xs
  | .star :: ts, s => (starSuffixes s).any fun s' => rmatch ts s'
  | .plusClass :: ts, s => (plusSuffixes s).any fun s' => rmatch ts s'

/-- `re.match` of `^R$` against `s`: the trailing `$` also matches just
before a final newline, so the regex may match either all of `s` or all of
`s` minus one trailing `'\n'`. -/
def rmatchDollar (ts : List RTok) (s : List Char) : Bool :=
  rmatch ts s ||
    match s.getLast? with
    | some c => c == '\n' && rmatch ts s.dropLast
    | none => false

/-- `_topic_matches(topic, pattern)` from coordinator.py: exact string
equality first, then the regex test.  `none` means the pattern lies outside
the embedded regex fragment. -/
def _topic_matches (topic pattern : String) : Option Bool :=
  if pattern == topic then some true
  else (compilePattern pattern.data).map fun ts => rmatchDollar ts topic.data

/-- Split a character list on `/`, as Python's `"...".split("/")` would:
`""` has one (empty) segment, `"a//c"` has segments `a`, ``, `c`. -/
def splitSlash : List Char → List (List Char)
  | [] => [[]]
  | c :: cs =>
      if c == '/' then [] :: splitSlash cs
      else
        match splitSlash cs with
        | [] => [[c]]
        | p :: ps => (c :: p) :: ps

/-- Join segments with `/` (left inverse of `splitSlash`). -/
def joinSlash : List (List Char) → List Char
  | [] => []
  | [s] => s
  | s :: s2 :: rest => s ++ '/' :: joinSlash (s2 :: rest)

/-- The regex tokens produced for one pattern segment: the segment `+`
becomes `[^/]+`, any other segment is a run of literals. -/
def segToks (s : List Char) : List RTok :=
  if s == ['+'] then [RTok.plusClass] else s.map RTok.lit

/-- The regex tokens produced for a whole segmented pattern, with a literal
`/` between consecutive segments. -/
def patToks : List (List Char) → List RTok
  | [] => []
  | [s] => segToks s
  | s :: s2 :: rest => segToks s ++ RTok.lit '/' :: patToks (s2 :: rest)

/-- Segment-level matching as the spec describes it: a `+` pattern segment
matches exactly one nonempty topic segment, any other pattern segment must
equal the topic segment. -/
def segOk (pseg tseg : List Char) : Bool :=
  if pseg == ['+'] then !tseg.isEmpty && tseg.all (fun c => c != '/')
  else pseg == tseg

/-- Position-wise segment matching; fails when the segment counts differ. -/
def segsMatch : List (List Char) → List (List Char) → Bool
  | [], [] => true
  | p :: ps, t :: ts => segOk p t && segsMatch ps ts
  | _, _ => false

/-- A registered callback handle; the registry stores opaque handles and
never inspects them. -/
abbrev Callback := Nat

/-- The behaviour of callback bodies: invoking handle `cb` on
`(topic, payload)` either returns normally or raises an exception
(modelled by `Except.error`). -/
abbrev Behavior := Callback → String → String → Except String Unit

/-- Wire-level actions the coordinator issues to the MQTT client. -/
inductive WireAction where
  | sub (topic : String) (qos : Nat)
  | unsub (topic : String)
  | pub (topic payload : String) (qos : Nat) (retain : Bool)
  deriving DecidableEq, Repr

/-- The mutable state of `GalaxyCoordinator` relevant to the claims:
`subscriptions` is the insertion-ordered dict `pattern -> callbacks`
(Python dicts preserve insertion order), `hasClient` records whether
`self.client` is non-None, `connected` is the `self.connected` flag. -/
structure CoordState where
  subscriptions : List (String × List Callback)
  hasClient : Bool
  connected : Bool
  deriving DecidableEq, Repr

/-- `GalaxyCoordinator.subscribe`: create the entry (at the end of the
dict) on first registration, append the callback, then issue a wire
subscribe (QoS 0) iff the client exists and is connected; otherwise the
registration is only queued in the registry. -/
def subscribe (st : CoordState) (topic : String) (cb : Callback) :
    CoordState × List WireAction :=
  let subs0 :=
    match st.subscriptions.lookup topic with
    | none => st.subscriptions ++ [(topic, [])]
    | some _ => st.subscriptions
  let subs1 := subs0.map fun e => if e.1 == topic then (e.1, e.2 ++ [cb]) else e
  let st' := { st with subscriptions := subs1 }
  if st.hasClient then
    if st.connected then (st', [WireAction.sub topic 0]) else (st', [])
  else (st', [])

/-- `GalaxyCoordinator.unsubscribe`: remove the first occurrence of the
callback from the pattern's list (if both exist); if the list becomes
empty, delete the dict entry and issue a wire unsubscribe iff the client
exists and is connected. -/
def unsubscribe (st : CoordState) (topic : String) (cb : Callback) :
    CoordState × List WireAction :=
  match st.subscriptions.lookup topic with
  | none => (st, [])
  | some cbs =>
      let cbs' := if cbs.contains cb then cbs.erase cb else cbs
      if cbs' == [] then
        ({ st with subscriptions :=
            st.subscriptions.filter fun e => e.1 != topic },
         if st.hasClient && st.connected then [WireAction.unsub topic] else [])
      else
        ({ st with subscriptions :=
            st.subscriptions.map fun e => if e.1 == topic then (e.1, cbs') else e },
         [])

/-- Outcome of a `publish` call, mirroring which log line runs. -/
inductive PubOutcome where
  | errNoClient
  | errNotConnected
  | sent (ok : Bool)
  | errCaught
  deriving DecidableEq, Repr

/-- `GalaxyCoordinator.publish`: log and return (sending nothing) when the
client is missing or not connected; otherwise attempt one QoS-0
non-retained publish, catching any exception the client raises (`wire`
models the client's result). -/
def publish (st : CoordState) (topic payload : String)
    (wire : Except String Nat) : CoordState × List WireAction × PubOutcome :=
  if st.hasClient = false then (st, [], .errNoClient)
  else if st.connected = false then (st, [], .errNotConnected)
  else
    match wire with
    | .ok rc => (st, [WireAction.pub topic payload 0 false], .sent (rc == 0))
    | .error _ => (st, [WireAction.pub topic payload 0 false], .errCaught)

/-- The `on_connect` MQTT callback: on `rc = 0` set `connected` and issue
one wire subscribe (QoS 0) per registered pattern in dict order; each
per-pattern broker result `subResult` is only logged (third component) and
never stops the loop.  On any other `rc` clear `connected` (rc = 5, the
authentication failure, only logs differently). -/
def on_connect (st : CoordState) (rc : Nat) (subResult : String → Bool) :
    CoordState × List WireAction × List Bool :=
  if rc == 0 then
    let st' := { st with connected := true }
    if st.subscriptions.isEmpty then (st', [], [])
    else
      let topics := st.subscriptions.map Prod.fst
      (st', topics.map fun t => WireAction.sub t 0, topics.map subResult)
  else
    ({ st with connected := false }, [], [])

/-- One observed callback invocation during dispatch: which handle was
called, with which arguments, and whether it returned normally. -/
structure Invocation where
  cb : Callback
  topic : String
  payload : String
  ok : Bool
  deriving DecidableEq, Repr

/-- Invoke each callback of a list in order with a per-callback
try/except: a failure is recorded and does not stop the loop. -/
def runCallbacks (b : Behavior) (cbs : List Callback) (topic payload : String) :
    List Invocation :=
  match cbs with
  | [] => []
  | cb :: rest =>
      { cb := cb, topic := topic, payload := payload,
        ok := match b cb topic payload with
              | .ok _ => true
              | .error _ => false } :: runCallbacks b rest topic payload

/-- The wildcard scan of `on_message`: walk the registry in insertion
order, run the callbacks of the first pattern that matches and stop
(`break`); `none` when a scanned pattern falls outside the embedded regex
fragment. -/
def scanSubs (b : Behavior) (topic payload : String) :
    List (String × List Callback) → Option (List Invocation)
  | [] => some []
  | (p, cbs) :: rest =>
      match _topic_matches topic p with
      | none => none
      | some true => some (runCallbacks b cbs topic payload)
      | some false => scanSubs b topic payload rest

/-- The `on_message` MQTT callback: exact-key lookup first (invoking every
callback of that entry), otherwise the first-match wildcard scan; the
registry is never modified. -/
def on_message (st : CoordState) (b : Behavior) (topic payload : String) :
    Option (CoordState × List Invocation) :=
  match st.subscriptions.lookup topic with
  | some cbs => some (st, runCallbacks b cbs topic payload)
  | none => (scanSubs b topic payload st.subscriptions).map fun invs => (st, invs)

/-- The callback list dispatch resolves for a topic: the exact entry's
list when the topic is a registry key, else the first wildcard-matching
entry's list, else the empty list. -/
def resolveCbs (st : CoordState) (topic : String) : List Callback :=
  match st.subscriptions.lookup topic with
  | some cbs => cbs
  | none =>
      match st.subscriptions.find? fun e => _topic_matches topic e.1 == some true with
      | some e => e.2
      | none => []

/-- Registry invariant: the keys are distinct (it is a dict) and every
entry holds at least one callback. -/
def RegInv (subs : List (String × List Callback)) : Prop :=
  (subs.map Prod.fst).Nodup ∧ ∀ e ∈ subs, e.2 ≠ []

/-- The ASCII whitespace characters removed by Python's `str.strip()`. -/
def isPySpace (c : Char) : Bool :=
  c == ' ' || c == '\t' || c == '\n' || c == '\r' || c == '\x0b' || c == '\x0c'

/-- `payload.strip()`. -/
def pyStrip (s : String) : String :=
  ⟨((s.data.dropWhile isPySpace).reverse.dropWhile isPySpace).reverse⟩

/-- Python string slicing `s[:n]` (by characters). -/
def pyTake (s : String) (n : Nat) : String :=
  ⟨s.data.take n⟩

/-- `"\n".join(lines)`. -/
def joinNL : List String → String
  | [] => ""
  | [s] => s
  | s :: s2 :: rest => s ++ "\n" ++ joinNL (s2 :: rest)

/-- The state of `PrinterLogSensor`: the `_log_lines` buffer and the
rendered `_state` string. -/
structure PrinterState where
  log_lines : List String
  state : String
  deriving DecidableEq, Repr

/-- The freshly initialised sensor: empty buffer, empty state. -/
def printerInit : PrinterState := ⟨[], ""⟩

/-- `PrinterLogSensor._max_lines`. -/
def max_lines : Nat := 10

/-- `PrinterLogSensor._async_update_state(payload)`: ignore falsy (empty)
payloads; append the stripped line; keep only the last 10 lines; render
the newline-joined buffer, falling back to the latest line alone (possibly
ellipsis-truncated) when the joined text exceeds 255 characters; a final
(redundant) truncation guard caps the state at 255 characters. -/
def pushLine (st : PrinterState) (payload : String) : PrinterState :=
  if payload == "" then st
  else
    let lines1 := st.log_lines ++ [pyStrip payload]
    let lines2 :=
      if lines1.length > max_lines then lines1.drop (lines1.length - max_lines)
      else lines1
    let full_log := joinNL lines2
    let s1 :=
      if full_log.length > 255 then
        match lines2.getLast? with
        | some latest =>
            if latest.length > 255 then pyTake latest 252 ++ "..." else latest
        | none => ""
      else full_log
    let s2 := if s1.length > 255 then pyTake s1 252 ++ "..." else s1
    { log_lines := lines2, state := s2 }

/-- `PrinterLogSensor.native_value`. -/
def native_value (st : PrinterState) : String :=
  if st.state.length > 255 then pyTake st.state 252 ++ "..." else st.state

example : _topic_matches "a/b" "a/b/#" = some false := by decide

example : _topic_matches "a/b/c/d" "a/b/#" = some true := by decide

example : _topic_matches "a/x" "a/b/#" = some false := by decide

example : _topic_matches "a/5/c" "a/+/c" = some true := by decide

example : _topic_matches "a/5/6/c" "a/+/c" = some false := by decide

example : _topic_matches "a//c" "a/+/c" = some false := by decide

example : _topic_matches "sensor/1" "sensor/12" = some false := by decide

example : _topic_matches "sensor/12" "sensor/12" = some true := by decide

example : _topic_matches "ab" "a." = some true := by decide

example : _topic_matches "a\n" "a" = some true := by decide

example : _topic_matches "a/b/c" "+/#" = some true := by decide

example : _topic_matches "a/b/x\n" "a/b/#" = some true := by decide

example : _topic_matches "a/\nb/c" "a/+/c" = some true := by decide

theorem mem_of_getLast?_eq_some {α : Type} {l : List α} {a : α}
    (h : l.getLast? = some a) : a ∈ l := by
  induction l with
  | nil => simp [List.getLast?] at h
  | cons x xs ih =>
    cases xs with
    | nil =>
      simp [List.getLast?] at h
      simp [h]
    | cons y ys =>
      rw [List.getLast?_cons_cons] at h
      exact List.mem_cons_of_mem _ (ih h)

theorem compileChar_plain {c : Char} (h : plainChar c = true) :
    compileChar c = some (.lit c) := by
  unfold plainChar metaChar at h
  unfold compileChar metaChar
  simp only [Bool.and_eq_true, Bool.not_eq_true', Bool.or_eq_false_iff,
    bne_iff_ne, ne_eq] at h
  obtain ⟨hm, hh⟩ := h
  simp_all

theorem compilePattern_plain (l : List Char) (h : ∀ c ∈ l, plainChar c = true) :
    compilePattern l = some (l.map RTok.lit) := by
  induction l with
  | nil => rfl
  | cons c cs ih =>
    have hc := compileChar_plain (h c (List.mem_cons_self c cs))
    have hcs := ih fun x hx => h x (List.mem_cons_of_mem _ hx)
    simp [compilePattern, hc, hcs]

theorem compilePattern_append (a b : List Char) :
    compilePattern (a ++ b) =
      (compilePattern a).bind fun x => (compilePattern b).map fun y => x ++ y := by
  induction a with
  | nil =>
    cases h : compilePattern b <;> simp [compilePattern, h]
  | cons c cs ih =>
    simp only [List.cons_append, compilePattern, List.append_eq, ih]
    cases compileChar c <;> cases compilePattern cs <;> cases compilePattern b <;> rfl

theorem rmatch_nil (s : List Char) : rmatch [] s = (s == []) := rfl

theorem rmatch_lits_append (l : List Char) (ts : List RTok) (s : List Char) :
    rmatch (l.map RTok.lit ++ ts) s = true ↔
      ∃ s', s = l ++ s' ∧ rmatch ts s' = true := by
  induction l generalizing s with
  | nil =>
    constructor
    · intro h; exact ⟨s, rfl, by simpa using h⟩
    · rintro ⟨s', rfl, h⟩; simpa using h
  | cons c cs ih =>
    cases s with
    | nil =>
      constructor
      · intro h; simp [rmatch] at h
      · rintro ⟨s', hs, -⟩
        exact absurd hs.symm (by simp)
    | cons x xs =>
      constructor
      · intro h
        rw [List.map_cons, List.cons_append] at h
        simp only [rmatch, Bool.and_eq_true, beq_iff_eq] at h
        obtain ⟨rfl, h⟩ := h
        obtain ⟨s', rfl, h'⟩ := (ih xs).mp h
        exact ⟨s', rfl, h'⟩
      · rintro ⟨s', hs, h'⟩
        rw [List.cons_append] at hs
        injection hs with h1 h2
        subst h1
        subst h2
        rw [List.map_cons, List.cons_append]
        simp only [rmatch, Bool.and_eq_true, beq_iff_eq]
        refine ⟨by simp, ?_⟩
        exact (ih _).mpr ⟨s', rfl, h'⟩

theorem rmatch_lits (l : List Char) (s : List Char) :
    rmatch (l.map RTok.lit) s = true ↔ s = l := by
  have h := rmatch_lits_append l [] s
  simp only [List.append_nil] at h
  rw [h]
  constructor
  · rintro ⟨s', rfl, h'⟩
    simp [rmatch_nil] at h'
    simp [h']
  · rintro rfl
    exact ⟨[], by simp, rfl⟩

theorem mem_starSuffixes {s v : List Char} :
    v ∈ starSuffixes s ↔ ∃ u, s = u ++ v ∧ ∀ c ∈ u, c ≠ '\n' := by
  induction s with
  | nil =>
    constructor
    · intro h
      have hv : v = [] := by simpa [starSuffixes] using h
      subst hv
      exact ⟨[], rfl, by simp⟩
    · rintro ⟨u, hu, -⟩
      obtain ⟨rfl, rfl⟩ := List.append_eq_nil.mp hu.symm
      simp [starSuffixes]
  | cons c cs ih =>
    constructor
    · intro h
      by_cases hc : c = '\n'
      · subst hc
        have hv : v = '\n' :: cs := by simpa [starSuffixes] using h
        subst hv
        exact ⟨[], rfl, by simp⟩
      · have hc' : (c == '\n') = false := by simpa using hc
        have h' : v = c :: cs ∨ v ∈ starSuffixes cs := by
          simpa [starSuffixes, hc'] using h
        rcases h' with rfl | h'
        · exact ⟨[], rfl, by simp⟩
        · obtain ⟨u, rfl, hnl⟩ := ih.mp h'
          refine ⟨c :: u, rfl, ?_⟩
          intro x hx
          rcases List.mem_cons.mp hx with rfl | hx
          · exact hc
          · exact hnl x hx
    · rintro ⟨u, hu, hnl⟩
      cases u with
      | nil =>
        simp only [List.nil_append] at hu
        subst hu
        simp [starSuffixes]
      | cons d ds =>
        rw [List.cons_append] at hu
        injection hu with h1 h2
        subst h1
        have hd : c ≠ '\n' := hnl c (List.mem_cons_self c ds)
        have hd' : (c == '\n') = false := by simpa using hd
        have hv : v ∈ starSuffixes cs :=
          ih.mpr ⟨ds, h2, fun x hx => hnl x (List.mem_cons_of_mem _ hx)⟩
        simp [starSuffixes, hd', hv]

theorem mem_plusSuffixes {s v : List Char} :
    v ∈ plusSuffixes s ↔
      ∃ u, s = u ++ v ∧ u ≠ [] ∧ ∀ c ∈ u, c ≠ '/' := by
  induction s with
  | nil =>
    constructor
    · intro h; simp [plusSuffixes] at h
    · rintro ⟨u, hu, hne, -⟩
      obtain ⟨rfl, -⟩ := List.append_eq_nil.mp hu.symm
      exact absurd rfl hne
  | cons c cs ih =>
    constructor
    · intro h
      by_cases hc : c = '/'
      · subst hc; simp [plusSuffixes] at h
      · have hc' : (c == '/') = false := by simpa using hc
        have h' : v = cs ∨ v ∈ plusSuffixes cs := by
          simpa [plusSuffixes, hc'] using h
        rcases h' with rfl | h'
        · exact ⟨[c], rfl, by simp, by simpa using hc⟩
        · obtain ⟨u, rfl, hne, hns⟩ := ih.mp h'
          refine ⟨c :: u, rfl, by simp, ?_⟩
          intro x hx
          rcases List.mem_cons.mp hx with rfl | hx
          · exact hc
          · exact hns x hx
    · rintro ⟨u, hu, hne, hns⟩
      cases u with
      | nil => exact absurd rfl hne
      | cons d ds =>
        rw [List.cons_append] at hu
        injection hu with h1 h2
        subst h1
        have hd : c ≠ '/' := hns c (List.mem_cons_self c ds)
        have hd' : (c == '/') = false := by simpa using hd
        cases ds with
        | nil =>
          simp only [List.nil_append] at h2
          subst h2
          simp [plusSuffixes, hd']
        | cons e es =>
          have hv : v ∈ plusSuffixes cs :=
            ih.mpr ⟨e :: es, h2, by simp,
              fun x hx => hns x (List.mem_cons_of_mem _ hx)⟩
          simp [plusSuffixes, hd', hv]

theorem rmatch_star (ts : List RTok) (s : List Char) :
    rmatch (.star :: ts) s = true ↔
      ∃ u v, s = u ++ v ∧ (∀ c ∈ u, c ≠ '\n') ∧ rmatch ts v = true := by
  simp only [rmatch, List.any_eq_true]
  constructor
  · rintro ⟨v, hv, hm⟩
    obtain ⟨u, rfl, hnl⟩ := mem_starSuffixes.mp hv
    exact ⟨u, v, rfl, hnl, hm⟩
  · rintro ⟨u, v, rfl, hnl, hm⟩
    exact ⟨v, mem_starSuffixes.mpr ⟨u, rfl, hnl⟩, hm⟩

theorem rmatch_plusClass (ts : List RTok) (s : List Char) :
    rmatch (.plusClass :: ts) s = true ↔
      ∃ u v, s = u ++ v ∧ u ≠ [] ∧ (∀ c ∈ u, c ≠ '/') ∧ rmatch ts v = true := by
  simp only [rmatch, List.any_eq_true]
  constructor
  · rintro ⟨v, hv, hm⟩
    obtain ⟨u, rfl, hne, hns⟩ := mem_plusSuffixes.mp hv
    exact ⟨u, v, rfl, hne, hns, hm⟩
  · rintro ⟨u, v, rfl, hne, hns, hm⟩
    exact ⟨v, mem_plusSuffixes.mpr ⟨u, rfl, hne, hns⟩, hm⟩

theorem rmatchDollar_of_no_newline {ts : List RTok} {s : List Char}
    (h : '\n' ∉ s) : rmatchDollar ts s = rmatch ts s := by
  unfold rmatchDollar
  cases hg : s.getLast? with
  | none => simp
  | some c =>
    have hc : c ≠ '\n' := fun hcn => h (hcn ▸ mem_of_getLast?_eq_some hg)
    have hc' : (c == '\n') = false := by simpa using hc
    simp [hc']

theorem rmatchDollar_of_last_not_newline {ts : List RTok} {s : List Char}
    (h : s.getLast? ≠ some '\n') : rmatchDollar ts s = rmatch ts s := by
  unfold rmatchDollar
  cases hg : s.getLast? with
  | none => simp
  | some c =>
    have hc : c ≠ '\n' := fun hcn => h (hcn ▸ hg)
    have hc' : (c == '\n') = false := by simpa using hc
    simp [hc']

/-- C2 (amended): for every topic `T` whose last character is not a newline
and every pattern `P` all of whose characters are plain literals (no `+`,
no `#`, and no regex metacharacter such as `.`), `_topic_matches T P`
returns exactly `T == P`; in particular `"sensor/1"` does not match the
pattern `"sensor/12"` and no such pattern matches any topic other than
itself. -/
theorem matches_plain_pattern_iff_eq (T P : String)
    (hP : ∀ c ∈ P.data, plainChar c = true)
    (hT : T.data.getLast? ≠ some '\n') :
    _topic_matches T P = some (T == P) := by
  by_cases hTP : T = P
  · subst hTP
    simp [_topic_matches]
  · have hbe : (P == T) = false := beq_eq_false_iff_ne.mpr (Ne.symm hTP)
    have hbe' : (T == P) = false := beq_eq_false_iff_ne.mpr hTP
    unfold _topic_matches
    rw [hbe]
    simp only [Bool.false_eq_true, if_false, compilePattern_plain P.data hP,
      Option.map_some']
    rw [rmatchDollar_of_last_not_newline hT, hbe']
    have : rmatch (P.data.map RTok.lit) T.data = false := by
      cases h : rmatch (P.data.map RTok.lit) T.data with
      | false => rfl
      | true => exact absurd (String.ext ((rmatch_lits _ _).mp h)) hTP
    rw [this]

/-- C2 (counterexample to the claim as stated): the pattern `"a."` contains
neither `+` nor `#`, yet it matches the distinct topic `"ab"`, because
`_topic_matches` builds a regex from the pattern without escaping the
metacharacter `.`.  So `matches(T,P) == (T==P)` fails for wildcard-free
patterns in general. -/
theorem matches_wildcard_free_not_equality :
    _topic_matches "ab" "a." = some true ∧ "ab" ≠ "a." := by
  constructor
  · decide
  · decide

/-- C2 (witness): the amended claim evaluated at topic `"sensor/1"` and
pattern `"sensor/12"`: no partial/segment-prefix matching. -/
theorem matches_plain_pattern_iff_eq_witness :
    _topic_matches "sensor/1" "sensor/12" = some false := by
  have h := matches_plain_pattern_iff_eq "sensor/1" "sensor/12"
    (by decide) (by decide)
  simpa using h

/-- C1 (amended): for a pattern `pre ++ "/#"` whose stem `pre` consists of
plain literal characters, `_topic_matches topic (pre ++ "/#")` succeeds
exactly when the topic equals the pattern string itself or has the shape
`pre ++ "/" ++ rest` — i.e. the literal stem, then the separator `/`, then
anything (for newline-free topics).  In particular the parent topic `pre`
itself does NOT match: `matches("a/b", "a/b/#") == false`, while
`matches("a/b/c/d", "a/b/#") == true` and `matches("a/x", "a/b/#") ==
false`. -/
theorem matches_hash_pattern_iff (pre topic : String)
    (hpre : ∀ c ∈ pre.data, plainChar c = true)
    (htop : '\n' ∉ topic.data) :
    _topic_matches topic (pre ++ "/#") = some true ↔
      (topic = pre ++ "/#" ∨ ∃ rest : String, topic = pre ++ "/" ++ rest) := by
  have hdata : (pre ++ "/#").data = pre.data ++ ['/', '#'] := by
    rw [String.data_append]
  have hslash : ("/" : String).data = ['/'] := rfl
  by_cases hTP : topic = pre ++ "/#"
  · subst hTP
    unfold _topic_matches
    simp
  · have hbe : ((pre ++ "/#") == topic) = false :=
      beq_eq_false_iff_ne.mpr fun h => hTP h.symm
    unfold _topic_matches
    rw [hbe]
    simp only [Bool.false_eq_true, if_false]
    have hcomp : compilePattern (pre ++ "/#").data =
        some (pre.data.map RTok.lit ++ [RTok.lit '/', RTok.star]) := by
      rw [hdata, compilePattern_append, compilePattern_plain pre.data hpre]
      rfl
    rw [hcomp]
    simp only [Option.map_some', Option.some_inj]
    rw [rmatchDollar_of_no_newline htop]
    constructor
    · intro h
      obtain ⟨s', hs, h'⟩ := (rmatch_lits_append _ _ _).mp h
      right
      cases s' with
      | nil => simp [rmatch] at h'
      | cons x xs =>
        simp only [rmatch, Bool.and_eq_true, beq_iff_eq] at h'
        obtain ⟨rfl, -⟩ := h'
        refine ⟨⟨xs⟩, String.ext ?_⟩
        rw [hs, String.data_append, String.data_append, hslash]
        simp
    · rintro (h | ⟨rest, rfl⟩)
      · exact absurd h hTP
      · apply (rmatch_lits_append _ _ _).mpr
        refine ⟨'/' :: rest.data, ?_, ?_⟩
        · rw [String.data_append, String.data_append, hslash]
          simp
        · simp only [rmatch, Bool.and_eq_true, beq_iff_eq]
          refine ⟨by simp, ?_⟩
          rw [List.any_eq_true]
          refine ⟨[], mem_starSuffixes.mpr ⟨rest.data, by simp, ?_⟩, by simp⟩
          intro c hc hcn
          apply htop
          rw [String.data_append]
          subst hcn
          exact List.mem_append.mpr (Or.inr hc)

/-- C1 (counterexample to the claim as stated): the claim requires
`matches("a/b", "a/b/#") == true` (zero extra segments), but the code turns
`"a/b/#"` into the regex `^a/b/.*$`, which requires the separator `/` after
`a/b`; the code returns false on the bare parent topic. -/
theorem matches_hash_parent_topic_fails :
    _topic_matches "a/b" "a/b/#" = some false := by decide

/-- C1 (witness): the amended claim evaluated at `pre = "a/b"` and topic
`"a/b/c/d"`. -/
theorem matches_hash_pattern_iff_witness :
    _topic_matches "a/b/c/d" ("a/b" ++ "/#") = some true := by
  exact (matches_hash_pattern_iff "a/b" "a/b/c/d" (by decide)
    (by decide)).mpr (Or.inr ⟨"c/d", by decide⟩)

theorem splitSlash_ne_nil (t : List Char) : splitSlash t ≠ [] := by
  cases t with
  | nil => simp [splitSlash]
  | cons c cs =>
    unfold splitSlash
    by_cases hc : (c == '/') = true
    · simp [hc]
    · simp only [Bool.not_eq_true] at hc
      cases h : splitSlash cs <;> simp [hc, h]

theorem splitSlash_no_slash (t : List Char) (h : ∀ c ∈ t, c ≠ '/') :
    splitSlash t = [t] := by
  induction t with
  | nil => rfl
  | cons c cs ih =>
    have hc' : (c == '/') = false := by
      simpa using h c (List.mem_cons_self c cs)
    have ih' := ih fun x hx => h x (List.mem_cons_of_mem _ hx)
    simp [splitSlash, hc', ih']

theorem splitSlash_append_slash (u v : List Char) (h : ∀ c ∈ u, c ≠ '/') :
    splitSlash (u ++ '/' :: v) = u :: splitSlash v := by
  induction u with
  | nil => simp [splitSlash]
  | cons c cs ih =>
    have hc' : (c == '/') = false := by
      simpa using h c (List.mem_cons_self c cs)
    have ih' := ih fun x hx => h x (List.mem_cons_of_mem _ hx)
    rw [List.cons_append]
    simp [splitSlash, hc', ih']

theorem joinSlash_cons_head (c : Char) (p : List Char) (ps : List (List Char)) :
    joinSlash ((c :: p) :: ps) = c :: joinSlash (p :: ps) := by
  cases ps <;> simp [joinSlash]

theorem joinSlash_splitSlash (t : List Char) : joinSlash (splitSlash t) = t := by
  induction t with
  | nil => rfl
  | cons c cs ih =>
    by_cases hc : c = '/'
    · subst hc
      have h1 : splitSlash ('/' :: cs) = [] :: splitSlash cs := by
        simp [splitSlash]
      rw [h1]
      cases h : splitSlash cs with
      | nil => exact absurd h (splitSlash_ne_nil cs)
      | cons p ps =>
        have ih' : joinSlash (p :: ps) = cs := by rw [← h]; exact ih
        simp [joinSlash, ih']
    · have hc' : (c == '/') = false := by simpa using hc
      cases h : splitSlash cs with
      | nil => exact absurd h (splitSlash_ne_nil cs)
      | cons p ps =>
        have h1 : splitSlash (c :: cs) = (c :: p) :: ps := by
          simp [splitSlash, hc', h]
        have ih' : joinSlash (p :: ps) = cs := by rw [← h]; exact ih
        rw [h1, joinSlash_cons_head, ih']

theorem plain_seg_ne_plus {s : List Char}
    (hpl : ∀ c ∈ s, plainChar c = true ∧ c ≠ '/') : (s == ['+']) = false := by
  by_cases hq : s = ['+']
  · subst hq
    have h1 := (hpl '+' (by simp)).1
    have h2 : plainChar '+' = false := by decide
    rw [h2] at h1
    exact absurd h1 (by simp)
  · simpa using hq

theorem compilePattern_joinSlash (segs : List (List Char))
    (hsegs : ∀ s ∈ segs, s = ['+'] ∨ ∀ c ∈ s, plainChar c = true ∧ c ≠ '/') :
    compilePattern (joinSlash segs) = some (patToks segs) := by
  induction segs with
  | nil => rfl
  | cons s ps ih =>
    cases ps with
    | nil =>
      rcases hsegs s (List.mem_cons_self _ _) with rfl | hpl
      · rfl
      · have h1 : compilePattern s = some (s.map RTok.lit) :=
          compilePattern_plain s fun c hc => (hpl c hc).1
        have h2 := plain_seg_ne_plus hpl
        simp [joinSlash, patToks, segToks, h1, h2]
    | cons s2 rest =>
      have ih' := ih fun x hx => hsegs x (List.mem_cons_of_mem _ hx)
      have hslashc : compileChar '/' = some (RTok.lit '/') := by decide
      have hplusc : compileChar '+' = some RTok.plusClass := by decide
      rcases hsegs s (List.mem_cons_self _ _) with rfl | hpl
      · show compilePattern ('+' :: '/' :: joinSlash (s2 :: rest)) = _
        simp [compilePattern, hplusc, hslashc, ih', patToks, segToks]
      · have h1 : compilePattern s = some (s.map RTok.lit) :=
          compilePattern_plain s fun c hc => (hpl c hc).1
        have h2 := plain_seg_ne_plus hpl
        show compilePattern (s ++ '/' :: joinSlash (s2 :: rest)) = _
        rw [compilePattern_append, h1]
        simp [compilePattern, hslashc, ih', patToks, segToks, h2]

theorem segOk_plus_iff (t : List Char) :
    segOk ['+'] t = true ↔ t ≠ [] ∧ ∀ c ∈ t, c ≠ '/' := by
  have hcond : ((['+'] : List Char) == ['+']) = true := rfl
  unfold segOk
  rw [if_pos hcond, Bool.and_eq_true]
  constructor
  · rintro ⟨h1, h2⟩
    constructor
    · intro hnil
      subst hnil
      simp at h1
    · intro c hc
      simpa using List.all_eq_true.mp h2 c hc
  · rintro ⟨h1, h2⟩
    constructor
    · cases t with
      | nil => exact absurd rfl h1
      | cons a as => rfl
    · exact List.all_eq_true.mpr fun c hc => by simpa using h2 c hc

theorem segOk_plain {s t : List Char} (h2 : (s == ['+']) = false) :
    segOk s t = (s == t) := by
  unfold segOk
  simp only [h2, Bool.false_eq_true, if_false]

theorem segOk_refl (s : List Char) : segOk s s = true := by
  by_cases hq : s = ['+']
  · subst hq; rfl
  · have hq' : (s == ['+']) = false := by simpa using hq
    simp [segOk, hq']

theorem segsMatch_refl (segs : List (List Char)) :
    segsMatch segs segs = true := by
  induction segs with
  | nil => rfl
  | cons s ss ih => simp [segsMatch, segOk_refl, ih]

theorem rmatch_of_segsMatch (segs parts : List (List Char))
    (hsegs : ∀ s ∈ segs, s = ['+'] ∨ ∀ c ∈ s, plainChar c = true ∧ c ≠ '/')
    (h : segsMatch segs parts = true) :
    rmatch (patToks segs) (joinSlash parts) = true := by
  induction segs generalizing parts with
  | nil =>
    cases parts with
    | nil => rfl
    | cons p ps => simp [segsMatch] at h
  | cons s ss ih =>
    cases parts with
    | nil => simp [segsMatch] at h
    | cons t ts =>
      have hok : segOk s t = true ∧ segsMatch ss ts = true := by
        simpa [segsMatch, Bool.and_eq_true] using h
      cases ss with
      | nil =>
        cases ts with
        | cons t2 ts2 => simp [segsMatch] at hok
        | nil =>
          show rmatch (segToks s) t = true
          rcases hsegs s (List.mem_cons_self _ _) with rfl | hpl
          · have h1 := (segOk_plus_iff t).mp hok.1
            show rmatch [RTok.plusClass] t = true
            apply (rmatch_plusClass _ _).mpr
            exact ⟨t, [], by simp, h1.1, h1.2, rfl⟩
          · have h2 := plain_seg_ne_plus hpl
            have ht : s = t := by
              have hx := hok.1
              rw [segOk_plain h2] at hx
              exact eq_of_beq hx
            subst ht
            rw [show segToks s = s.map RTok.lit from by simp [segToks, h2]]
            exact (rmatch_lits s s).mpr rfl
      | cons s2 ss2 =>
        cases ts with
        | nil => simp [segsMatch] at hok
        | cons t2 ts2 =>
          have ihr := ih (t2 :: ts2)
            (fun x hx => hsegs x (List.mem_cons_of_mem _ hx)) hok.2
          show rmatch (patToks (s :: s2 :: ss2)) (joinSlash (t :: t2 :: ts2)) = true
          rw [show joinSlash (t :: t2 :: ts2) = t ++ '/' :: joinSlash (t2 :: ts2) from rfl]
          rcases hsegs s (List.mem_cons_self _ _) with rfl | hpl
          · have h1 := (segOk_plus_iff t).mp hok.1
            rw [show patToks (['+'] :: s2 :: ss2) =
              RTok.plusClass :: RTok.lit '/' :: patToks (s2 :: ss2) from rfl]
            apply (rmatch_plusClass _ _).mpr
            refine ⟨t, '/' :: joinSlash (t2 :: ts2), rfl, h1.1, h1.2, ?_⟩
            simp [rmatch, ihr]
          · have h2 := plain_seg_ne_plus hpl
            have ht : s = t := by
              have hx := hok.1
              rw [segOk_plain h2] at hx
              exact eq_of_beq hx
            subst ht
            rw [show patToks (s :: s2 :: ss2) =
              s.map RTok.lit ++ RTok.lit '/' :: patToks (s2 :: ss2) from by
                simp [patToks, segToks, h2]]
            apply (rmatch_lits_append _ _ _).mpr
            refine ⟨'/' :: joinSlash (t2 :: ts2), rfl, ?_⟩
            simp [rmatch, ihr]

theorem segsMatch_of_rmatch (segs : List (List Char)) (t : List Char)
    (hsegs : ∀ s ∈ segs, s = ['+'] ∨ ∀ c ∈ s, plainChar c = true ∧ c ≠ '/')
    (hne : segs ≠ [])
    (h : rmatch (patToks segs) t = true) :
    segsMatch segs (splitSlash t) = true := by
  induction segs generalizing t with
  | nil => exact absurd rfl hne
  | cons s ss ih =>
    cases ss with
    | nil =>
      rcases hsegs s (List.mem_cons_self _ _) with rfl | hpl
      · have h' := (rmatch_plusClass _ _).mp
          (by simpa [patToks, segToks] using h)
        obtain ⟨u, v, rfl, hun, hns, hv⟩ := h'
        have hv' : v = [] := by simpa [rmatch] using hv
        subst hv'
        rw [List.append_nil]
        rw [splitSlash_no_slash u hns]
        have hok : segOk ['+'] u = true := (segOk_plus_iff u).mpr ⟨hun, hns⟩
        simp [segsMatch, hok]
      · have h2 := plain_seg_ne_plus hpl
        have ht : t = s := by
          apply (rmatch_lits s t).mp
          simpa [patToks, segToks, h2] using h
        subst ht
        rw [splitSlash_no_slash t fun c hc => (hpl c hc).2]
        simp [segsMatch, segOk_refl]
    | cons s2 ss2 =>
      rcases hsegs s (List.mem_cons_self _ _) with rfl | hpl
      · have h' := (rmatch_plusClass _ _).mp
          (by simpa [patToks, segToks] using h)
        obtain ⟨u, v, rfl, hun, hns, hv⟩ := h'
        cases v with
        | nil => simp [rmatch] at hv
        | cons x v' =>
          simp only [rmatch, Bool.and_eq_true, beq_iff_eq] at hv
          obtain ⟨rfl, hv⟩ := hv
          rw [splitSlash_append_slash u v' hns]
          have ihr := ih v' (fun x hx => hsegs x (List.mem_cons_of_mem _ hx))
            (by simp) hv
          have hok : segOk ['+'] u = true := (segOk_plus_iff u).mpr ⟨hun, hns⟩
          simp [segsMatch, hok, ihr]
      · have h2 := plain_seg_ne_plus hpl
        have h' := (rmatch_lits_append s (RTok.lit '/' :: patToks (s2 :: ss2)) t).mp
          (by
            have hp : patToks (s :: s2 :: ss2) =
                s.map RTok.lit ++ RTok.lit '/' :: patToks (s2 :: ss2) := by
              simp [patToks, segToks, h2]
            rw [← hp]; exact h)
        obtain ⟨s', rfl, hs'⟩ := h'
        cases s' with
        | nil => simp [rmatch] at hs'
        | cons x v' =>
          simp only [rmatch, Bool.and_eq_true, beq_iff_eq] at hs'
          obtain ⟨rfl, hs'⟩ := hs'
          rw [splitSlash_append_slash s v' fun c hc => (hpl c hc).2]
          have ihr := ih v' (fun x hx => hsegs x (List.mem_cons_of_mem _ hx))
            (by simp) hs'
          simp [segsMatch, segOk_refl, ihr]

/-- C3 (amended): for a pattern whose `/`-segments are each either exactly
`+` or a run of plain literal characters, and a topic not ending in a
newline, `_topic_matches` succeeds exactly when the topic has the same
number of `/`-delimited segments, every `+` pattern segment corresponds to
exactly one NONEMPTY topic segment, and every other pattern segment equals
the corresponding topic segment literally; e.g.
`matches("a/5/c", "a/+/c") == true` and
`matches("a/5/6/c", "a/+/c") == false`.  (The claim as frozen fails for
patterns that combine a `+` segment with `#` or a regex metacharacter; and
the code refuses an empty topic segment where `+` stands, since `[^/]+`
needs at least one character.) -/
theorem matches_plus_pattern_iff (pat topic : String)
    (hsegs : ∀ s ∈ splitSlash pat.data,
      s = ['+'] ∨ ∀ c ∈ s, plainChar c = true ∧ c ≠ '/')
    (hplus : ['+'] ∈ splitSlash pat.data)
    (htop : topic.data.getLast? ≠ some '\n') :
    _topic_matches topic pat = some true ↔
      segsMatch (splitSlash pat.data) (splitSlash topic.data) = true := by
  by_cases hTP : pat = topic
  · subst hTP
    constructor
    · intro _
      exact segsMatch_refl _
    · intro _
      simp [_topic_matches]
  · have hbe : (pat == topic) = false := beq_eq_false_iff_ne.mpr hTP
    have hcomp : compilePattern pat.data = some (patToks (splitSlash pat.data)) := by
      conv_lhs => rw [← joinSlash_splitSlash pat.data]
      exact compilePattern_joinSlash _ hsegs
    unfold _topic_matches
    rw [hbe]
    simp only [Bool.false_eq_true, if_false, hcomp, Option.map_some',
      Option.some_inj]
    rw [rmatchDollar_of_last_not_newline htop]
    constructor
    · intro h
      exact segsMatch_of_rmatch _ _ hsegs (splitSlash_ne_nil _) h
    · intro h
      have hr := rmatch_of_segsMatch _ _ hsegs h
      rwa [joinSlash_splitSlash] at hr

/-- C3 (counterexample to the claim as stated): the pattern `"+/#"` has
`+` as its first segment and only two segments, yet it matches the
three-segment topic `"a/b/c"`, because its `#` segment becomes `.*`.  So a
pattern containing `+` as a segment can match a topic with a different
segment count. -/
theorem matches_plus_pattern_count_mismatch :
    _topic_matches "a/b/c" "+/#" = some true ∧
      ['+'] ∈ splitSlash ("+/#" : String).data ∧
      (splitSlash ("a/b/c" : String).data).length = 3 ∧
      (splitSlash ("+/#" : String).data).length = 2 := by
  refine ⟨by decide, by decide, by decide, by decide⟩

/-- C3 (witness): the amended claim evaluated at topic `"a/5/c"` and
pattern `"a/+/c"`. -/
theorem matches_plus_pattern_iff_witness :
    _topic_matches "a/5/c" "a/+/c" = some true := by
  exact (matches_plus_pattern_iff "a/+/c" "a/5/c" (by decide) (by decide)
    (by decide)).mpr (by decide)

theorem runCallbacks_proj (b : Behavior) (cbs : List Callback) (t p : String) :
    (runCallbacks b cbs t p).map (fun i => (i.cb, i.topic, i.payload)) =
      cbs.map fun cb => (cb, t, p) := by
  induction cbs with
  | nil => rfl
  | cons cb rest ih => simp [runCallbacks, ih]

theorem _topic_matches_isSome {topic p : String}
    (h : (compilePattern p.data).isSome) : (_topic_matches topic p).isSome := by
  unfold _topic_matches
  by_cases hq : (p == topic) = true
  · simp [hq]
  · simp only [Bool.not_eq_true] at hq
    cases hc : compilePattern p.data with
    | none => rw [hc] at h; simp at h
    | some ts => simp [hq, hc]

theorem scanSubs_eq_find (b : Behavior) (topic payload : String)
    (subs : List (String × List Callback))
    (hc : ∀ e ∈ subs, (compilePattern e.1.data).isSome) :
    scanSubs b topic payload subs =
      some (match subs.find? (fun e => _topic_matches topic e.1 == some true) with
            | some e => runCallbacks b e.2 topic payload
            | none => []) := by
  induction subs with
  | nil => rfl
  | cons e rest ih =>
    obtain ⟨p, cbs⟩ := e
    have hs : (_topic_matches topic p).isSome :=
      _topic_matches_isSome (hc (p, cbs) (List.mem_cons_self _ _))
    cases hm : _topic_matches topic p with
    | none => rw [hm] at hs; simp at hs
    | some bb =>
      cases bb with
      | true =>
        have hpred : (fun e : String × List Callback =>
            _topic_matches topic e.1 == some true) (p, cbs) = true := by
          simp [hm]
        have hfind : List.find? (fun e : String × List Callback =>
            _topic_matches topic e.1 == some true) ((p, cbs) :: rest) =
              some (p, cbs) :=
          List.find?_cons_of_pos _ hpred
        rw [hfind]
        simp [scanSubs, hm]
      | false =>
        have hpred : ¬ (fun e : String × List Callback =>
            _topic_matches topic e.1 == some true) (p, cbs) = true := by
          simp [hm]
        have hfind : List.find? (fun e : String × List Callback =>
            _topic_matches topic e.1 == some true) ((p, cbs) :: rest) =
              List.find? (fun e => _topic_matches topic e.1 == some true) rest :=
          List.find?_cons_of_neg _ hpred
        rw [hfind]
        have ih' := ih fun x hx => hc x (List.mem_cons_of_mem _ hx)
        simp [scanSubs, hm, ih']

theorem on_message_eq (st : CoordState) (b : Behavior) (topic payload : String)
    (hc : ∀ e ∈ st.subscriptions, (compilePattern e.1.data).isSome) :
    on_message st b topic payload =
      some (st, runCallbacks b (resolveCbs st topic) topic payload) := by
  unfold on_message resolveCbs
  cases hl : st.subscriptions.lookup topic with
  | some cbs => rfl
  | none =>
    rw [scanSubs_eq_find b topic payload _ hc]
    cases hf : st.subscriptions.find?
        (fun e => _topic_matches topic e.1 == some true) with
    | some e => simp
    | none => simp [runCallbacks]

/-- C4: for every registry state whose patterns lie in the embedded regex
fragment and every inbound message: dispatch invokes exactly the callbacks
of `resolveCbs` — the exact-key entry's callbacks when the topic is a
registry key (no wildcard scan takes place), otherwise the callbacks of
the FIRST registered pattern (in insertion order) whose match succeeds,
and nothing when no pattern matches. -/
theorem on_message_dispatch_policy (st : CoordState) (b : Behavior)
    (topic payload : String)
    (hc : ∀ e ∈ st.subscriptions, (compilePattern e.1.data).isSome) :
    on_message st b topic payload =
      some (st, runCallbacks b (resolveCbs st topic) topic payload) ∧
    (∀ cbs, st.subscriptions.lookup topic = some cbs → resolveCbs st topic = cbs) ∧
    (st.subscriptions.lookup topic = none →
      resolveCbs st topic =
        match st.subscriptions.find?
            (fun e => _topic_matches topic e.1 == some true) with
        | some e => e.2
        | none => []) := by
  refine ⟨on_message_eq st b topic payload hc, ?_, ?_⟩
  · intro cbs hl
    unfold resolveCbs
    rw [hl]
  · intro hl
    unfold resolveCbs
    rw [hl]

/-- C4 (witness): with an exact entry `"a/b"` and a wildcard entry
`"a/+"` both matching, only the exact entry's callback (handle 1) runs. -/
theorem on_message_dispatch_policy_witness :
    on_message ⟨[("a/b", [1]), ("a/+", [2])], true, true⟩
        (fun _ _ _ => Except.ok ()) "a/b" "x" =
      some (⟨[("a/b", [1]), ("a/+", [2])], true, true⟩,
        [⟨1, "a/b", "x", true⟩]) := by
  have h := (on_message_dispatch_policy ⟨[("a/b", [1]), ("a/+", [2])], true, true⟩
    (fun _ _ _ => Except.ok ()) "a/b" "x" (by decide)).1
  rw [h]
  rfl

/-- C7: dispatch is total (the per-callback try/except means no exception
escapes the handler), leaves the registry untouched, and invokes EVERY
resolved callback in order with the original topic and payload — the
projection of the invocation list does not depend on which callbacks
fail. -/
theorem on_message_isolates_failures (st : CoordState) (b : Behavior)
    (topic payload : String)
    (hc : ∀ e ∈ st.subscriptions, (compilePattern e.1.data).isSome) :
    (on_message st b topic payload).isSome ∧
    ∀ r, on_message st b topic payload = some r →
      r.1 = st ∧
      r.2.map (fun i => (i.cb, i.topic, i.payload)) =
        (resolveCbs st topic).map fun cb => (cb, topic, payload) := by
  have he := on_message_eq st b topic payload hc
  constructor
  · rw [he]; rfl
  · intro r hr
    rw [he] at hr
    obtain rfl := (Option.some_inj.mp hr).symm
    exact ⟨rfl, runCallbacks_proj b _ topic payload⟩

/-- C7 (witness): the first callback raises, the second is still invoked
with the same topic and payload, and the state (registry) is unchanged. -/
theorem on_message_isolates_failures_witness :
    ∃ r, on_message ⟨[("t", [1, 2])], true, true⟩
        (fun cb _ _ => if cb == 1 then Except.error "boom" else Except.ok ())
        "t" "p" = some r ∧
      r.1 = ⟨[("t", [1, 2])], true, true⟩ ∧
      r.2.map (fun i => (i.cb, i.topic, i.payload)) = [(1, "t", "p"), (2, "t", "p")] := by
  have h := on_message_isolates_failures ⟨[("t", [1, 2])], true, true⟩
    (fun cb _ _ => if cb == 1 then Except.error "boom" else Except.ok ())
    "t" "p" (by decide)
  cases hm : on_message ⟨[("t", [1, 2])], true, true⟩
      (fun cb _ _ => if cb == 1 then Except.error "boom" else Except.ok ())
      "t" "p" with
  | none => rw [hm] at h; simp at h
  | some r =>
    have h2 := h.2 r hm
    refine ⟨r, rfl, h2.1, ?_⟩
    rw [h2.2]
    rfl

/-- C5: when the connection callback reports success (`rc = 0`), the
coordinator transitions to connected and issues exactly one QoS-0 wire
subscribe per registered pattern, in registry (insertion) order; the
per-pattern broker results do not influence which subscribes are
attempted (a failed subscribe never aborts the rest of the batch). -/
theorem on_connect_replays (st : CoordState) (r r' : String → Bool) (rc : Nat)
    (h : rc = 0) :
    (on_connect st rc r).1.connected = true ∧
    (on_connect st rc r).2.1 =
      st.subscriptions.map (fun e => WireAction.sub e.1 0) ∧
    (on_connect st rc r).2.1 = (on_connect st rc r').2.1 := by
  subst h
  unfold on_connect
  by_cases he : st.subscriptions.isEmpty = true
  · have he' : st.subscriptions = [] := List.isEmpty_iff.mp he
    simp [he']
  · simp only [Bool.not_eq_true] at he
    simp [he, List.map_map, Function.comp]

/-- C5 (witness): with patterns `"A"`, `"B"` registered while
disconnected, a successful connect issues exactly the two subscribes in
order, whatever the broker answers. -/
theorem on_connect_replays_witness :
    (on_connect ⟨[("A", [1]), ("B", [2])], true, false⟩ 0 (fun _ => false)).2.1 =
      [WireAction.sub "A" 0, WireAction.sub "B" 0] ∧
    (on_connect ⟨[("A", [1]), ("B", [2])], true, false⟩ 0
      (fun _ => false)).1.connected = true := by
  have h := on_connect_replays ⟨[("A", [1]), ("B", [2])], true, false⟩
    (fun _ => false) (fun _ => true) 0 rfl
  exact ⟨by rw [h.2.1]; rfl, h.1⟩

theorem lookup_none_iff {α : Type} (subs : List (String × α)) (t : String) :
    subs.lookup t = none ↔ ∀ e ∈ subs, e.1 ≠ t := by
  induction subs with
  | nil => simp [List.lookup]
  | cons e rest ih =>
    obtain ⟨k, v⟩ := e
    by_cases hk : t = k
    · subst hk
      simp [List.lookup]
    · have hk' : (t == k) = false := beq_eq_false_iff_ne.mpr hk
      simp only [List.lookup, hk', List.mem_cons, ne_eq]
      rw [ih]
      constructor
      · intro h
        rintro e (rfl | he)
        · exact fun hh => hk hh.symm
        · exact h e he
      · intro h e he
        exact h e (Or.inr he)

theorem lookup_mem {α : Type} (subs : List (String × α)) (t : String) (v : α)
    (h : subs.lookup t = some v) : ∃ k, (k, v) ∈ subs ∧ t = k := by
  induction subs with
  | nil => simp [List.lookup] at h
  | cons e rest ih =>
    obtain ⟨k, w⟩ := e
    cases hk : (t == k) with
    | true =>
      have hw : w = v := by simpa [List.lookup, hk] using h
      subst hw
      exact ⟨k, List.mem_cons_self _ _, eq_of_beq hk⟩
    | false =>
      have h' : rest.lookup t = some v := by simpa [List.lookup, hk] using h
      obtain ⟨k', hm, he⟩ := ih h'
      exact ⟨k', List.mem_cons_of_mem _ hm, he⟩

theorem lookup_append_right {α : Type} (l1 l2 : List (String × α)) (t : String)
    (h : l1.lookup t = none) : (l1 ++ l2).lookup t = l2.lookup t := by
  induction l1 with
  | nil => simp
  | cons e rest ih =>
    obtain ⟨k, v⟩ := e
    cases hk : (t == k) with
    | true => simp [List.lookup, hk] at h
    | false =>
      have h' : rest.lookup t = none := by simpa [List.lookup, hk] using h
      rw [List.cons_append]
      simpa [List.lookup, hk] using ih h'

theorem lookup_map_update {α : Type} (subs : List (String × α)) (t : String)
    (f : α → α) (v : α) (h : subs.lookup t = some v) :
    (subs.map fun e => if e.1 == t then (e.1, f e.2) else e).lookup t =
      some (f v) := by
  induction subs with
  | nil => simp [List.lookup] at h
  | cons e rest ih =>
    obtain ⟨k, w⟩ := e
    by_cases hk : t = k
    · subst hk
      have hw : w = v := by simpa [List.lookup] using h
      subst hw
      have hhead : (if ((t, w).1 == t) = true
          then ((t, w).1, f (t, w).2) else (t, w)) = (t, f w) := by
        simp
      simp only [List.map_cons, hhead]
      simp [List.lookup]
    · have hk1 : (t == k) = false := beq_eq_false_iff_ne.mpr hk
      have hk2 : (k == t) = false := beq_eq_false_iff_ne.mpr (Ne.symm hk)
      have h' : rest.lookup t = some v := by simpa [List.lookup, hk1] using h
      have hhead : (if ((k, w).1 == t) = true
          then ((k, w).1, f (k, w).2) else (k, w)) = (k, w) := by
        simp [hk2]
      simp only [List.map_cons, hhead]
      simpa [List.lookup, hk1] using ih h'

theorem map_update_keys {α : Type} (subs : List (String × α)) (t : String)
    (f : α → α) :
    ((subs.map fun e => if e.1 == t then (e.1, f e.2) else e).map Prod.fst) =
      subs.map Prod.fst := by
  induction subs with
  | nil => rfl
  | cons e rest ih =>
    have h1 : (if (e.1 == t) = true then (e.1, f e.2) else e).1 = e.1 := by
      split <;> rfl
    simp only [List.map_cons, h1, ih]

theorem map_update_of_not_mem {α : Type} (subs : List (String × α)) (t : String)
    (g : α → α) (h : ∀ e ∈ subs, e.1 ≠ t) :
    (subs.map fun e => if e.1 == t then (e.1, g e.2) else e) = subs := by
  induction subs with
  | nil => rfl
  | cons e rest ih =>
    have hk : (e.1 == t) = false :=
      beq_eq_false_iff_ne.mpr (h e (List.mem_cons_self _ _))
    have ih' := ih fun x hx => h x (List.mem_cons_of_mem _ hx)
    have hhead : (if (e.1 == t) = true then (e.1, g e.2) else e) = e := by
      simp [hk]
    simp only [List.map_cons, hhead, ih']

theorem map_update_id {α : Type} (subs : List (String × α)) (t : String) (v : α)
    (hnd : (subs.map Prod.fst).Nodup) (h : subs.lookup t = some v) :
    (subs.map fun e => if e.1 == t then (e.1, v) else e) = subs := by
  induction subs with
  | nil => rfl
  | cons e rest ih =>
    obtain ⟨k, w⟩ := e
    rw [List.map_cons] at hnd
    have hnd1 : k ∉ rest.map Prod.fst := (List.nodup_cons.mp hnd).1
    have hnd2 : (rest.map Prod.fst).Nodup := (List.nodup_cons.mp hnd).2
    cases hk : (t == k) with
    | true =>
      have ht : t = k := eq_of_beq hk
      subst ht
      have hw : w = v := by simpa [List.lookup] using h
      subst hw
      have htail : ∀ e ∈ rest, e.1 ≠ t := by
        intro e he het
        exact hnd1 (List.mem_map.mpr ⟨e, he, het⟩)
      rw [List.map_cons]
      rw [map_update_of_not_mem rest t (fun _ => w) htail]
      simp
    | false =>
      have h' : rest.lookup t = some v := by simpa [List.lookup, hk] using h
      have ht : t ≠ k := by simpa using hk
      have hk2 : (k == t) = false := beq_eq_false_iff_ne.mpr (Ne.symm ht)
      have hhead : (if ((k, w).1 == t) = true
          then ((k, w).1, v) else (k, w)) = (k, w) := by
        simp [hk2]
      rw [List.map_cons, hhead, ih hnd2 h']

theorem scanSubs_all_false (b : Behavior) (T payload : String)
    (subs : List (String × List Callback))
    (h : ∀ e ∈ subs, _topic_matches T e.1 = some false) :
    scanSubs b T payload subs = some [] := by
  induction subs with
  | nil => rfl
  | cons e rest ih =>
    obtain ⟨p, cbs⟩ := e
    have hp : _topic_matches T p = some false := h (p, cbs) (List.mem_cons_self _ _)
    have ih' := ih fun x hx => h x (List.mem_cons_of_mem _ hx)
    simp [scanSubs, hp, ih']

theorem on_message_no_match (st : CoordState) (b : Behavior) (T payload : String)
    (h : ∀ e ∈ st.subscriptions, _topic_matches T e.1 = some false) :
    on_message st b T payload = some (st, []) := by
  have hl : st.subscriptions.lookup T = none := by
    rw [lookup_none_iff]
    intro e he het
    have hm := h e he
    rw [het] at hm
    simp [_topic_matches] at hm
  unfold on_message
  rw [hl, scanSubs_all_false b T payload _ h]
  rfl

theorem subscribe_subs (st : CoordState) (t : String) (cb : Callback) :
    (subscribe st t cb).1.subscriptions =
      ((match st.subscriptions.lookup t with
        | none => st.subscriptions ++ [(t, [])]
        | some _ => st.subscriptions).map
        fun e : String × List Callback =>
          if e.1 == t then (e.1, e.2 ++ [cb]) else e) := by
  obtain ⟨subs, hc, co⟩ := st
  cases hc <;> cases co <;> rfl

theorem unsubscribe_eq_none (st : CoordState) (t : String) (cb : Callback)
    (hl : st.subscriptions.lookup t = none) :
    unsubscribe st t cb = (st, []) := by
  unfold unsubscribe
  rw [hl]

theorem unsubscribe_eq_some (st : CoordState) (t : String) (cb : Callback)
    (cbs : List Callback) (hl : st.subscriptions.lookup t = some cbs) :
    unsubscribe st t cb =
      if (if cbs.contains cb then cbs.erase cb else cbs) == [] then
        ({ st with subscriptions :=
            st.subscriptions.filter (fun e => e.1 != t) },
         if st.hasClient && st.connected then [WireAction.unsub t] else [])
      else
        ({ st with subscriptions :=
            st.subscriptions.map (fun e : String × List Callback =>
              if e.1 == t then
                (e.1, if cbs.contains cb then cbs.erase cb else cbs)
              else e) },
         []) := by
  unfold unsubscribe
  rw [hl]

/-- C6: every registry key maps to a non-empty callback list and the keys
are distinct, and both `subscribe` and `unsubscribe` preserve this
invariant; `subscribe` creates the entry on first registration and appends
the callback; an `unsubscribe` that removes the pattern's last callback
deletes the entry entirely, issues a wire unsubscribe exactly when the
client exists and is connected, and afterwards a message matching the
removed pattern (and no remaining one) triggers no callback at all. -/
theorem registry_invariant (st : CoordState) (t : String) (cb : Callback)
    (hInv : RegInv st.subscriptions) :
    RegInv (subscribe st t cb).1.subscriptions ∧
    (subscribe st t cb).1.subscriptions.lookup t =
      some ((st.subscriptions.lookup t).getD [] ++ [cb]) ∧
    RegInv (unsubscribe st t cb).1.subscriptions ∧
    (st.subscriptions.lookup t = some [cb] →
      (unsubscribe st t cb).1.subscriptions.lookup t = none ∧
      (unsubscribe st t cb).2 =
        (if st.hasClient && st.connected then [WireAction.unsub t] else []) ∧
      ∀ (b : Behavior) (T payload : String), _topic_matches T t = some true →
        (∀ e ∈ (unsubscribe st t cb).1.subscriptions,
          _topic_matches T e.1 = some false) →
        on_message (unsubscribe st t cb).1 b T payload =
          some ((unsubscribe st t cb).1, [])) := by
  obtain ⟨hnd, hval⟩ := hInv
  refine ⟨?_, ?_, ?_, ?_⟩
  · -- subscribe preserves the invariant
    unfold RegInv
    cases hl : st.subscriptions.lookup t with
    | some v =>
      have hsub' : (subscribe st t cb).1.subscriptions =
          st.subscriptions.map (fun e : String × List Callback =>
            if e.1 == t then (e.1, e.2 ++ [cb]) else e) := by
        rw [subscribe_subs, hl]
      rw [hsub']
      have hkeys : ((st.subscriptions.map fun e : String × List Callback =>
          if e.1 == t then (e.1, e.2 ++ [cb]) else e).map Prod.fst) =
            st.subscriptions.map Prod.fst :=
        map_update_keys st.subscriptions t fun l => l ++ [cb]
      constructor
      · rw [hkeys]
        exact hnd
      · intro e' he'
        obtain ⟨e, he, heq⟩ := List.mem_map.mp he'
        by_cases hc : (e.1 == t) = true
        · rw [if_pos hc] at heq
          rw [← heq]
          simp
        · rw [if_neg hc] at heq
          rw [← heq]
          exact hval e he
    | none =>
      have hsub' : (subscribe st t cb).1.subscriptions =
          (st.subscriptions ++ [(t, [])]).map
            (fun e : String × List Callback =>
              if e.1 == t then (e.1, e.2 ++ [cb]) else e) := by
        rw [subscribe_subs, hl]
      rw [hsub']
      have hkeys0 : ∀ e ∈ st.subscriptions, e.1 ≠ t :=
        (lookup_none_iff _ _).mp hl
      have hkeys : (((st.subscriptions ++ [(t, [])]).map
          fun e : String × List Callback =>
            if e.1 == t then (e.1, e.2 ++ [cb]) else e).map Prod.fst) =
            (st.subscriptions ++ [(t, [])]).map Prod.fst :=
        map_update_keys (st.subscriptions ++ [(t, [])]) t fun l => l ++ [cb]
      constructor
      · rw [hkeys, List.map_append]
        rw [List.nodup_append]
        refine ⟨hnd, by simp, ?_⟩
        intro k hk hk2
        simp only [List.map_cons, List.map_nil, List.mem_singleton] at hk2
        obtain ⟨e, he, heq⟩ := List.mem_map.mp hk
        exact hkeys0 e he (heq.trans hk2)
      · intro e' he'
        obtain ⟨e, he, heq⟩ := List.mem_map.mp he'
        by_cases hc : (e.1 == t) = true
        · rw [if_pos hc] at heq
          rw [← heq]
          simp
        · rw [if_neg hc] at heq
          rw [← heq]
          rcases List.mem_append.mp he with he1 | he1
          · exact hval e he1
          · exfalso
            simp only [List.mem_singleton] at he1
            rw [he1] at hc
            simp at hc
  · -- subscribe looks up to the appended list
    cases hl : st.subscriptions.lookup t with
    | some v =>
      have hsub' : (subscribe st t cb).1.subscriptions =
          st.subscriptions.map (fun e : String × List Callback =>
            if e.1 == t then (e.1, e.2 ++ [cb]) else e) := by
        rw [subscribe_subs, hl]
      rw [hsub']
      have hlu := lookup_map_update st.subscriptions t (fun l => l ++ [cb]) v hl
      simpa using hlu
    | none =>
      have hsub' : (subscribe st t cb).1.subscriptions =
          (st.subscriptions ++ [(t, [])]).map
            (fun e : String × List Callback =>
              if e.1 == t then (e.1, e.2 ++ [cb]) else e) := by
        rw [subscribe_subs, hl]
      rw [hsub']
      have h0 : (st.subscriptions ++ [(t, [])]).lookup t = some [] := by
        rw [lookup_append_right _ _ _ hl]
        simp [List.lookup]
      have hlu := lookup_map_update (st.subscriptions ++ [(t, [])]) t
        (fun l => l ++ [cb]) [] h0
      simpa using hlu
  · -- unsubscribe preserves the invariant
    cases hl : st.subscriptions.lookup t with
    | none =>
      rw [unsubscribe_eq_none st t cb hl]
      exact ⟨hnd, hval⟩
    | some cbs =>
      rw [unsubscribe_eq_some st t cb cbs hl]
      by_cases hem : ((if cbs.contains cb then cbs.erase cb else cbs) == []) = true
      · rw [if_pos hem]
        constructor
        · refine List.Nodup.sublist ?_ hnd
          exact (List.filter_sublist _).map Prod.fst
        · intro e he
          exact hval e (List.mem_of_mem_filter he)
      · rw [if_neg hem]
        constructor
        · have hkeys : ((st.subscriptions.map fun e : String × List Callback =>
              if e.1 == t then
                (e.1, if cbs.contains cb then cbs.erase cb else cbs)
              else e).map Prod.fst) = st.subscriptions.map Prod.fst :=
            map_update_keys st.subscriptions t
              fun _ => if cbs.contains cb then cbs.erase cb else cbs
          rw [hkeys]
          exact hnd
        · intro e' he'
          obtain ⟨e, he, heq⟩ := List.mem_map.mp he'
          by_cases hc : (e.1 == t) = true
          · rw [if_pos hc] at heq
            rw [← heq]
            simpa using hem
          · rw [if_neg hc] at heq
            rw [← heq]
            exact hval e he
  · -- removing the last callback deletes the entry
    intro hl
    have hcbs' : ((if ([cb] : List Callback).contains cb
        then ([cb] : List Callback).erase cb else [cb]) == []) = true := by
      simp
    have hdel : unsubscribe st t cb =
        ({ st with subscriptions :=
            st.subscriptions.filter (fun e => e.1 != t) },
         if st.hasClient && st.connected then [WireAction.unsub t] else []) := by
      rw [unsubscribe_eq_some st t cb [cb] hl, if_pos hcbs']
    refine ⟨?_, ?_, ?_⟩
    · rw [hdel]
      rw [lookup_none_iff]
      intro e he
      have := List.of_mem_filter he
      simpa using this
    · rw [hdel]
    · intro b T payload _ hothers
      exact on_message_no_match _ b T payload hothers

/-- C6 (witness): with the single registration `("x", [5])` while
connected, unsubscribing handle 5 empties the entry: the key is gone, a
wire unsubscribe is issued, and a following message on `"x"` runs no
callback. -/
theorem registry_invariant_witness :
    (unsubscribe ⟨[("x", [5])], true, true⟩ "x" 5).1.subscriptions.lookup "x" = none ∧
    (unsubscribe ⟨[("x", [5])], true, true⟩ "x" 5).2 = [WireAction.unsub "x"] ∧
    on_message (unsubscribe ⟨[("x", [5])], true, true⟩ "x" 5).1
        (fun _ _ _ => Except.ok ()) "x" "p" =
      some ((unsubscribe ⟨[("x", [5])], true, true⟩ "x" 5).1, []) := by
  have h := (registry_invariant ⟨[("x", [5])], true, true⟩ "x" 5
    ⟨by decide, by decide⟩).2.2.2 (by decide)
  refine ⟨h.1, by rw [h.2.1]; rfl, ?_⟩
  exact h.2.2 (fun _ _ _ => Except.ok ()) "x" "p" (by decide) (by decide)

/-- C10: unsubscribing a pattern that is not registered, or a callback not
present in the pattern's (invariant-respecting, hence non-empty) list,
raises nothing, leaves the registry mapping unchanged and issues no wire
unsubscribe. -/
theorem unsubscribe_no_op (st : CoordState) (t : String) (cb : Callback)
    (hInv : RegInv st.subscriptions)
    (h : st.subscriptions.lookup t = none ∨
      ∃ cbs, st.subscriptions.lookup t = some cbs ∧ cb ∉ cbs) :
    unsubscribe st t cb = (st, []) := by
  rcases h with hl | ⟨cbs, hl, hcb⟩
  · exact unsubscribe_eq_none st t cb hl
  · rw [unsubscribe_eq_some st t cb cbs hl]
    have hcont : cbs.contains cb = false := by
      simpa using hcb
    have hne : cbs ≠ [] := by
      obtain ⟨k, hm, -⟩ := lookup_mem _ _ _ hl
      exact hInv.2 (k, cbs) hm
    have hbeq : (cbs == []) = false := beq_eq_false_iff_ne.mpr hne
    simp only [hcont, Bool.false_eq_true, if_false, hbeq]
    rw [map_update_id st.subscriptions t cbs hInv.1 hl]

/-- C10 (witness): with registry `{"a": [1]}`, unsubscribing an unknown
pattern `"b"` and unsubscribing an unregistered handle 2 from `"a"` are
both complete no-ops. -/
theorem unsubscribe_no_op_witness :
    unsubscribe ⟨[("a", [1])], true, true⟩ "b" 2 =
      (⟨[("a", [1])], true, true⟩, []) ∧
    unsubscribe ⟨[("a", [1])], true, true⟩ "a" 2 =
      (⟨[("a", [1])], true, true⟩, []) := by
  constructor
  · exact unsubscribe_no_op ⟨[("a", [1])], true, true⟩ "b" 2
      ⟨by decide, by decide⟩ (Or.inl (by decide))
  · exact unsubscribe_no_op ⟨[("a", [1])], true, true⟩ "a" 2
      ⟨by decide, by decide⟩ (Or.inr ⟨[1], by decide, by decide⟩)

/-- C8: publish never propagates an exception (a client exception is
caught, and the function is total); when the client is missing or the
connection is down it logs the corresponding error, sends nothing on the
wire, and — as no queue exists anywhere in the state — drops the payload,
leaving the registry, client handle and connected flag unchanged. -/
theorem publish_drops_when_not_connected (st : CoordState) (t p : String)
    (wire : Except String Nat)
    (h : st.hasClient = false ∨ st.connected = false) :
    publish st t p wire =
      (st, [],
        if st.hasClient then PubOutcome.errNotConnected
        else PubOutcome.errNoClient) := by
  unfold publish
  rcases h with h | h
  · simp [h]
  · by_cases hc : st.hasClient = false
    · simp [hc]
    · simp only [Bool.not_eq_false] at hc
      simp [hc, h]

/-- C8 (witness): publishing with no client, and publishing while
disconnected, both drop the message and change nothing, whatever the
client would have answered. -/
theorem publish_drops_when_not_connected_witness :
    publish ⟨[("a", [1])], false, false⟩ "t" "p" (Except.error "boom") =
      (⟨[("a", [1])], false, false⟩, [], PubOutcome.errNoClient) ∧
    publish ⟨[("a", [1])], true, false⟩ "t" "p" (Except.ok 0) =
      (⟨[("a", [1])], true, false⟩, [], PubOutcome.errNotConnected) := by
  constructor
  · have h := publish_drops_when_not_connected ⟨[("a", [1])], false, false⟩
      "t" "p" (Except.error "boom") (Or.inl rfl)
    simpa using h
  · have h := publish_drops_when_not_connected ⟨[("a", [1])], true, false⟩
      "t" "p" (Except.ok 0) (Or.inr rfl)
    simpa using h

theorem drop_length_add {α : Type} (pre l : List α) (i : Nat) :
    (pre ++ l).drop (pre.length + i) = l.drop i := by
  induction pre with
  | nil => simp
  | cons x xs ih => simp [Nat.succ_add, ih]

theorem pushLine_log_lines (st : PrinterState) (p : String) (hp : p ≠ "") :
    (pushLine st p).log_lines =
      (st.log_lines ++ [pyStrip p]).drop
        ((st.log_lines ++ [pyStrip p]).length - max_lines) := by
  have hp' : (p == "") = false := beq_eq_false_iff_ne.mpr hp
  unfold pushLine
  rw [hp']
  simp only [Bool.false_eq_true, if_false]
  by_cases hlen : (st.log_lines ++ [pyStrip p]).length > max_lines
  · simp only [hlen, if_true]
  · have h0 : (st.log_lines ++ [pyStrip p]).length - max_lines = 0 := by omega
    simp only [hlen, if_false, h0, List.drop_zero]

theorem pushLine_log_lines_le (st : PrinterState) (p : String)
    (hst : st.log_lines.length ≤ max_lines) :
    (pushLine st p).log_lines.length ≤ max_lines := by
  by_cases hp : p = ""
  · subst hp
    simpa [pushLine] using hst
  · rw [pushLine_log_lines st p hp]
    rw [List.length_drop]
    omega

theorem lastN_append_absorb (a b : List String) :
    ((a.drop (a.length - max_lines) ++ b).drop
      ((a.drop (a.length - max_lines) ++ b).length - max_lines)) =
    ((a ++ b).drop ((a ++ b).length - max_lines)) := by
  by_cases ha : a.length ≤ max_lines
  · have h0 : a.length - max_lines = 0 := Nat.sub_eq_zero_of_le ha
    rw [h0, List.drop_zero]
  · have hsplit : a.take (a.length - max_lines) ++
        a.drop (a.length - max_lines) = a := List.take_append_drop _ a
    have hlen : (a.drop (a.length - max_lines)).length = max_lines := by
      rw [List.length_drop]
      omega
    conv_rhs => rw [← hsplit, List.append_assoc]
    have hpre : (a.take (a.length - max_lines)).length = a.length - max_lines := by
      rw [List.length_take]
      omega
    have harith : (a.take (a.length - max_lines) ++
        (a.drop (a.length - max_lines) ++ b)).length - max_lines =
        (a.take (a.length - max_lines)).length +
          ((a.drop (a.length - max_lines) ++ b).length - max_lines) := by
      simp only [List.length_append, hpre, hlen]
      omega
    rw [harith, drop_length_add]

theorem foldl_pushLine_log_lines (L : List String) (st : PrinterState)
    (hL : ∀ p ∈ L, p ≠ "" ∧ pyStrip p = p)
    (hst : st.log_lines.length ≤ max_lines) :
    (L.foldl pushLine st).log_lines =
      (st.log_lines ++ L).drop ((st.log_lines ++ L).length - max_lines) := by
  induction L generalizing st with
  | nil =>
    have h0 : (st.log_lines ++ []).length - max_lines = 0 := by
      rw [List.append_nil]
      omega
    rw [h0, List.drop_zero, List.append_nil]
    rfl
  | cons p rest ih =>
    have hp := hL p (List.mem_cons_self _ _)
    have hpush := pushLine_log_lines st p hp.1
    rw [hp.2] at hpush
    have ih' := ih (pushLine st p)
      (fun x hx => hL x (List.mem_cons_of_mem _ hx))
      (pushLine_log_lines_le st p hst)
    rw [List.foldl_cons, ih', hpush]
    have := lastN_append_absorb (st.log_lines ++ [p]) rest
    rw [List.append_assoc] at this
    simpa using this

theorem pyTake_length (s : String) (n : Nat) :
    (pyTake s n).length = min n s.length := by
  show (s.data.take n).length = min n s.data.length
  exact List.length_take n s.data

theorem pushLine_state_le (st : PrinterState) (p : String) (hp : p ≠ "") :
    (pushLine st p).state.length ≤ 255 := by
  have hp' : (p == "") = false := beq_eq_false_iff_ne.mpr hp
  unfold pushLine
  rw [hp']
  simp only [Bool.false_eq_true, if_false]
  set s1 := (if (joinNL (if (st.log_lines ++ [pyStrip p]).length > max_lines
      then (st.log_lines ++ [pyStrip p]).drop
        ((st.log_lines ++ [pyStrip p]).length - max_lines)
      else st.log_lines ++ [pyStrip p])).length > 255 then _ else _) with hs1
  by_cases h : s1.length > 255
  · simp only [h, if_true]
    rw [String.length_append, pyTake_length]
    have : (255 : Nat) < s1.length := h
    have h252 : min 252 s1.length = 252 := by omega
    rw [h252]
    rfl
  · simp only [h, if_false]
    omega

theorem native_value_length_le (st : PrinterState) :
    (native_value st).length ≤ 255 := by
  unfold native_value
  by_cases h : st.state.length > 255
  · simp only [h, if_true]
    rw [String.length_append, pyTake_length]
    have h252 : min 252 st.state.length = 252 := by omega
    rw [h252]
    rfl
  · simp only [h, if_false]
    omega

theorem native_value_of_le (st : PrinterState) (h : st.state.length ≤ 255) :
    native_value st = st.state := by
  unfold native_value
  have h' : ¬ st.state.length > 255 := by omega
  simp only [h', if_false]

theorem pushLine_state_spec (st : PrinterState) (p : String) (hp : p ≠ "")
    (hjoin : (joinNL (pushLine st p).log_lines).length > 255) :
    ∀ latest, (pushLine st p).log_lines.getLast? = some latest →
      (pushLine st p).state =
        (if latest.length > 255 then pyTake latest 252 ++ "..." else latest) := by
  intro latest hlast
  have hp' : (p == "") = false := beq_eq_false_iff_ne.mpr hp
  have hlines := pushLine_log_lines st p hp
  unfold pushLine
  rw [hp']
  simp only [Bool.false_eq_true, if_false]
  unfold pushLine at hlines hjoin hlast
  rw [hp'] at hlines hjoin hlast
  simp only [Bool.false_eq_true, if_false] at hlines hjoin hlast
  rw [hlines] at hjoin hlast ⊢
  simp only [hjoin, if_true, hlast]
  by_cases hlat : latest.length > 255
  · simp only [hlat, if_true]
    have hle : (pyTake latest 252 ++ "...").length ≤ 255 := by
      rw [String.length_append, pyTake_length]
      have h252 : min 252 latest.length = 252 := by omega
      rw [h252]
      rfl
    have hngt : ¬ (pyTake latest 252 ++ "...").length > 255 := by omega
    simp only [hngt, if_false]
  · simp only [hlat, if_false]

/-- C9 (amended): pushing 12 non-empty, already-stripped lines into the
printer log retains exactly the last 10 in arrival order (newest last);
the rendered value never exceeds 255 characters; but when the
newline-joined buffer exceeds 255 characters the rendered value is NOT the
joined buffer truncated with an ellipsis — it collapses to the most recent
line alone, which carries the 3-character `"..."` marker only when that
single line itself exceeds 255 characters. -/
theorem printer_log_buffer (L : List String) (hlen : L.length = 12)
    (hL : ∀ p ∈ L, p ≠ "" ∧ pyStrip p = p) :
    (L.foldl pushLine printerInit).log_lines = L.drop 2 ∧
    (native_value (L.foldl pushLine printerInit)).length ≤ 255 ∧
    ((joinNL (L.foldl pushLine printerInit).log_lines).length > 255 →
      ∀ latest, (L.foldl pushLine printerInit).log_lines.getLast? = some latest →
        native_value (L.foldl pushLine printerInit) =
          (if latest.length > 255 then pyTake latest 252 ++ "..." else latest)) := by
  have hfold := foldl_pushLine_log_lines L printerInit hL (by simp [printerInit, max_lines])
  have hdrop : (printerInit.log_lines ++ L).drop
      ((printerInit.log_lines ++ L).length - max_lines) = L.drop 2 := by
    show (([] : List String) ++ L).drop ((([] : List String) ++ L).length - max_lines) = L.drop 2
    rw [List.nil_append, hlen]
    rfl
  rcases List.eq_nil_or_concat L with rfl | ⟨L2, q, rfl⟩
  · simp at hlen
  · have hq : q ∈ L2.concat q := by simp
    have hq' := hL q hq
    have hfoldq : (L2.concat q).foldl pushLine printerInit =
        pushLine (L2.foldl pushLine printerInit) q := by
      rw [List.concat_eq_append, List.foldl_append]
      rfl
    refine ⟨hfold.trans hdrop, native_value_length_le _, ?_⟩
    intro hjoin latest hlast
    rw [hfoldq] at hjoin hlast ⊢
    have hspec := pushLine_state_spec (L2.foldl pushLine printerInit) q hq'.1
      hjoin latest hlast
    rw [native_value_of_le _ (pushLine_state_le _ _ hq'.1), hspec]

set_option maxRecDepth 8192 in
/-- C9 (counterexample to the claim as stated): after six 50-character
lines the joined buffer has 305 > 255 characters, yet the rendered value
is the bare most-recent line (50 characters, last character `a`), with no
`"..."` ellipsis marker anywhere. -/
theorem printer_log_no_ellipsis :
    (joinNL ((List.replicate 6 (String.mk (List.replicate 50 'a'))).foldl
        pushLine printerInit).log_lines).length = 305 ∧
    native_value ((List.replicate 6 (String.mk (List.replicate 50 'a'))).foldl
        pushLine printerInit) = String.mk (List.replicate 50 'a') ∧
    (native_value ((List.replicate 6 (String.mk (List.replicate 50 'a'))).foldl
        pushLine printerInit)).data.getLast? = some 'a' := by
  refine ⟨by decide, by decide, by decide⟩

/-- C9 (witness): twelve short lines; the buffer keeps the last ten. -/
theorem printer_log_buffer_witness :
    (["l01", "l02", "l03", "l04", "l05", "l06", "l07", "l08", "l09", "l10",
      "l11", "l12"].foldl pushLine printerInit).log_lines =
      ["l03", "l04", "l05", "l06", "l07", "l08", "l09", "l10", "l11", "l12"] ∧
    (native_value (["l01", "l02", "l03", "l04", "l05", "l06", "l07", "l08",
      "l09", "l10", "l11", "l12"].foldl pushLine printerInit)).length ≤ 255 := by
  have h := printer_log_buffer
    ["l01", "l02", "l03", "l04", "l05", "l06", "l07", "l08", "l09", "l10",
     "l11", "l12"] (by decide) (by decide)
  exact ⟨by rw [h.1]; rfl, h.2.1⟩

end HoneywellGalaxy
